import Mathlib

/-
A shallow embedding of the `ordered` Go package: an insertion-ordered map
(`Map`) backed by a hash index plus a doubly linked order list, an
insertion-ordered set (`OSet`) wrapping it, and the JSON / gob codecs.

The Go value `*Map[K,V]` holds
  mp    : map[K]*valuePair[V]   -- hash index, key -> (list node, value)
  items : *list.List            -- doubly linked list of keys, front = oldest
We model the hash index as an association list `List (K × V)` (the list-node
pointer stored in `valuePair` is represented implicitly: removing via the
stored node is removing the unique occurrence of the key from `items`), and
the order list as `List K` (head = front = oldest).
-/

set_option autoImplicit false

namespace Ordered

variable {K : Type} {V : Type}

/-- Association-list lookup, modelling the Go map read `o.mp[key]`. -/
def mpGet [DecidableEq K] : List (K × V) → K → Option V
  | [], _ => none
  | p :: ps, k => if p.1 = k then some p.2 else mpGet ps k

/-- Association-list value update, modelling `o.mp[key].value = value`
(the single slot for `key` gets the new value). -/
def mpSet [DecidableEq K] : List (K × V) → K → V → List (K × V)
  | [], _, _ => []
  | p :: ps, k, v => if p.1 = k then (p.1, v) :: ps else p :: mpSet ps k v

/-- Association-list deletion, modelling `delete(o.mp, key)`. -/
def mpDel [DecidableEq K] : List (K × V) → K → List (K × V)
  | [], _ => []
  | p :: ps, k => if p.1 = k then ps else p :: mpDel ps k

/-- Removal of the node holding `k` from the order list, modelling
`o.items.Remove(vp.elem)` (the node stored at insertion). -/
def removeFirst [DecidableEq K] : List K → K → List K
  | [], _ => []
  | x :: xs, k => if x = k then xs else x :: removeFirst xs k

/-- KeyValue represents a map element as a key-value pair. -/
structure KeyValue (K V : Type) where
  Key : K
  Value : V
deriving DecidableEq

instance instInhabitedKeyValue [Inhabited K] [Inhabited V] : Inhabited (KeyValue K V) :=
  ⟨⟨default, default⟩⟩

/-- The ordered map `Map[K, V]`: hash index `mp` plus insertion-order
list `items` (head = front = oldest insertion). -/
structure Map (K V : Type) where
  mp : List (K × V)
  items : List K
deriving DecidableEq

/-- NewMap initializes an ordered map (empty index, empty order list). -/
def NewMap : Map K V := ⟨[], []⟩

namespace Map

/-- Put: if the key is absent, push a new node at the back of the order
list and create the index entry; otherwise overwrite only the value. -/
def Put [DecidableEq K] (o : Map K V) (key : K) (value : V) : Map K V :=
  match mpGet o.mp key with
  | none => { mp := o.mp ++ [(key, value)], items := o.items ++ [key] }
  | some _ => { o with mp := mpSet o.mp key value }

/-- Get returns the mapped value and a bool indicating presence; on a miss
it returns the zero value (`var dummy V`) and `false`. -/
def Get [DecidableEq K] [Inhabited V] (o : Map K V) (key : K) : V × Bool :=
  match mpGet o.mp key with
  | some v => (v, true)
  | none => (default, false)

/-- GetOrDefault returns the mapped value if present, else the given default. -/
def GetOrDefault [DecidableEq K] (o : Map K V) (key : K) (defaultValue : V) : V :=
  match mpGet o.mp key with
  | some v => v
  | none => defaultValue

/-- ContainsKey checks if the map contains a mapping for the given key. -/
def ContainsKey [DecidableEq K] (o : Map K V) (key : K) : Bool :=
  (mpGet o.mp key).isSome

/-- Remove: on hit, unlink the order-list node, delete the index entry and
return the previous value; on miss return the zero value and leave the map
unchanged. The resulting map is the second component. -/
def Remove [DecidableEq K] [Inhabited V] (o : Map K V) (key : K) : V × Map K V :=
  match mpGet o.mp key with
  | some v => (v, { mp := mpDel o.mp key, items := removeFirst o.items key })
  | none => (default, o)

/-- Len returns the number of elements (`o.items.Len()`). -/
def Len (o : Map K V) : Nat := o.items.length

/-- Keys returns all keys in insertion order (front-to-back walk of `items`). -/
def Keys (o : Map K V) : List K := o.items

/-- Values: Go allocates a zero-filled slice of length `items.Len()` and
fills a slot only when the index lookup succeeds, so dangling keys leave
zero values at the tail. -/
def Values [DecidableEq K] [Inhabited V] (o : Map K V) : List V :=
  let found := o.items.filterMap (fun k => mpGet o.mp k)
  found ++ List.replicate (o.items.length - found.length) default

/-- KeyValues: same walk as `Values`, producing key-value pairs. -/
def KeyValues [DecidableEq K] [Inhabited K] [Inhabited V] (o : Map K V) :
    List (KeyValue K V) :=
  let found := o.items.filterMap (fun k => (mpGet o.mp k).map (fun v => KeyValue.mk k v))
  found ++ List.replicate (o.items.length - found.length) default

/-- IsEmpty checks `len(o.mp) == 0`. -/
def IsEmpty (o : Map K V) : Bool := o.mp.length == 0

/-- Clear deletes every index entry and unlinks every order-list node. -/
def Clear (_ : Map K V) : Map K V := ⟨[], []⟩

end Map

/-- NewMapWithKVs builds a map by repeated `Put` over the given pairs. -/
def NewMapWithKVs [DecidableEq K] (kvs : List (KeyValue K V)) : Map K V :=
  kvs.foldl (fun om kv => om.Put kv.Key kv.Value) NewMap

/-- One `Put` step, used to fold a list of pairs into a map. -/
def putStep [DecidableEq K] (o : Map K V) (p : K × V) : Map K V := o.Put p.1 p.2

/-- The well-formedness invariant tying the two halves together: the index
holds exactly the keys of the order list, in the same order, and the order
list has no duplicates.  It holds for every map reachable through the API. -/
def WF (o : Map K V) : Prop := o.mp.map Prod.fst = o.items ∧ o.items.Nodup

instance instDecidableWF [DecidableEq K] (o : Map K V) : Decidable (WF o) := by
  unfold WF; infer_instance

/-- First-occurrence subsequence of a key sequence, relative to an already
seen set: the spec-side description of what `Keys` returns after a
sequence of `Put` calls. -/
def firstOccurrences [DecidableEq K] (seen : List K) : List K → List K
  | [] => []
  | k :: ks =>
    if k ∈ seen then firstOccurrences seen ks
    else k :: firstOccurrences (k :: seen) ks

/-- A public mutation on the map, for stating invariants over arbitrary
operation sequences. -/
inductive Op (K V : Type)
  | put : K → V → Op K V
  | remove : K → Op K V
  | clear : Op K V

/-- Apply one public mutation (the map returned by `Remove` is its second
component). -/
def applyOp [DecidableEq K] [Inhabited V] (m : Map K V) : Op K V → Map K V
  | .put k v => m.Put k v
  | .remove k => (m.Remove k).2
  | .clear => m.Clear

/-- The switch case of `any(kv.Key).(type)` that the map's key type falls
into: native string, one of the integer primitives, a type implementing
`encoding.TextMarshaler`, or anything else. -/
inductive KeyKind
  | string
  | int
  | textMarshaler
  | other
deriving DecidableEq

/-- `fmt.Sprintf("\"%s\"", s)`: wrap raw bytes in quotes. -/
def quoteRaw (s : String) : String := "\"" ++ s ++ "\""

/-- The primitive kind reported by the external textual parser for a
member value (`jsonparser.ValueType`). -/
inductive JType
  | string
  | number
  | object
  | array
  | boolean
  | null
deriving DecidableEq

/-- The key bytes written by `MarshalJSON` for one key: strings and
TextMarshaler keys are marshalled directly; integer keys are marshalled
(never an error in Go, so a marshal error leaves empty bytes) and wrapped
in quotes; any other key type is the "invalid key type" error. -/
def keyBytes {K : Type} (kind : KeyKind) (kMarshal : K → Except String String)
    (k : K) : Except String String :=
  match kind with
  | .string => kMarshal k
  | .textMarshaler => kMarshal k
  | .int =>
    .ok ("\"" ++ (match kMarshal k with | .ok b => b | .error _ => "") ++ "\"")
  | .other => .error "invalid key type"

/-- The member list written by `MarshalJSON`'s loop: a comma before every
member but the first, then key bytes, a colon and the marshalled value;
the first marshalling error aborts the whole encode. -/
def marshalMembers {K V : Type} (kind : KeyKind)
    (kMarshal : K → Except String String) (vMarshal : V → Except String String) :
    List (KeyValue K V) → Bool → Except String String
  | [], _ => .ok ""
  | kv :: rest, isFirst =>
    match keyBytes kind kMarshal kv.Key with
    | .error e => .error e
    | .ok kb =>
      match vMarshal kv.Value with
      | .error e => .error e
      | .ok vb =>
        match marshalMembers kind kMarshal vMarshal rest false with
        | .error e => .error e
        | .ok restS => .ok ((if isFirst then "" else ",") ++ kb ++ ":" ++ vb ++ restS)

/-- MarshalJSON: an opening brace, the members of `KeyValues()` in
insertion order, and a closing brace.  `kMarshal` and `vMarshal` stand for
the external `json.Marshal` at the key and value types. -/
def Map.MarshalJSON [DecidableEq K] [Inhabited K] [Inhabited V] (kind : KeyKind)
    (kMarshal : K → Except String String) (vMarshal : V → Except String String)
    (o : Map K V) : Except String String :=
  match marshalMembers kind kMarshal vMarshal o.KeyValues true with
  | .error e => .error e
  | .ok s => .ok ("\x7b" ++ s ++ "\x7d")

/-- The decoding done by one `ObjectEach` callback of `UnmarshalJSON`:
reject unsupported key kinds, decode the quoted member name with the
external `json.Unmarshal` at the key type, re-quote string-typed values
and decode the value. -/
def decodeMemberPair {K V : Type} (kind : KeyKind)
    (kUnmarshal : String → Except String K) (vUnmarshal : String → Except String V)
    (key value : String) (dt : JType) : Except String (K × V) :=
  match kind with
  | .other => .error "invalid key type"
  | _ =>
    match kUnmarshal (quoteRaw key) with
    | .error e => .error e
    | .ok k =>
      let valBytes := if dt = .string then quoteRaw value else value
      match vUnmarshal valBytes with
      | .error e => .error e
      | .ok v => .ok (k, v)

/-- The `ObjectEach` callback body of `UnmarshalJSON` for one member:
decode the member and `Put` the pair into the receiver. -/
def unmarshalMember [DecidableEq K] (kind : KeyKind)
    (kUnmarshal : String → Except String K) (vUnmarshal : String → Except String V)
    (o : Map K V) (key value : String) (dt : JType) : Except String (Map K V) :=
  match decodeMemberPair kind kUnmarshal vUnmarshal key value dt with
  | .error e => .error e
  | .ok p => .ok (o.Put p.1 p.2)

/-- `jsonparser.ObjectEach`: invoke the callback member by member, stopping
at (and returning) the first callback error. -/
def objectEach [DecidableEq K] (kind : KeyKind)
    (kUnmarshal : String → Except String K) (vUnmarshal : String → Except String V) :
    Map K V → List (String × String × JType) → Map K V × Option String
  | o, [] => (o, none)
  | o, (key, value, dt) :: rest =>
    match unmarshalMember kind kUnmarshal vUnmarshal o key value dt with
    | .error e => (o, some e)
    | .ok o' => objectEach kind kUnmarshal vUnmarshal o' rest

/-- UnmarshalJSON over the member sequence the external parser reports for
the input bytes (the parser is used only through that contract). -/
def Map.UnmarshalJSON [DecidableEq K] (kind : KeyKind)
    (kUnmarshal : String → Except String K) (vUnmarshal : String → Except String V)
    (o : Map K V) (members : List (String × String × JType)) : Map K V × Option String :=
  objectEach kind kUnmarshal vUnmarshal o members

/-- The pairs a member sequence decodes to, independent of any map: the
same per-member decoding as `unmarshalMember`, without the `Put`. -/
def memberPairs {K V : Type} (kind : KeyKind)
    (kUnmarshal : String → Except String K) (vUnmarshal : String → Except String V) :
    List (String × String × JType) → Except String (List (K × V))
  | [] => .ok []
  | (key, value, dt) :: rest =>
    match decodeMemberPair kind kUnmarshal vUnmarshal key value dt with
    | .error e => .error e
    | .ok p =>
      match memberPairs kind kUnmarshal vUnmarshal rest with
      | .error e => .error e
      | .ok ps => .ok (p :: ps)

/-- One item of the sequential gob stream: the encoded length prefix (a Go
`int`), an encoded key, or an encoded value.  Decoding an item at the
wrong type is the stream/target type mismatch of the binary codec. -/
inductive GobItem (K V : Type)
  | int : Nat → GobItem K V
  | key : K → GobItem K V
  | val : V → GobItem K V
deriving DecidableEq

/-- The stream fragment for a pair list: key item then value item, per pair. -/
def pairItems {K V : Type} : List (K × V) → List (GobItem K V)
  | [] => []
  | p :: ps => .key p.1 :: .val p.2 :: pairItems ps

/-- GobEncode: the length, then key and value of every entry in insertion
order. -/
def Map.GobEncode [DecidableEq K] [Inhabited K] [Inhabited V] (o : Map K V) :
    List (GobItem K V) :=
  GobItem.int o.Len :: pairItems (o.KeyValues.map (fun kv => (kv.Key, kv.Value)))

/-- GobDecode's loop: `len` iterations, each decoding one key and one
value and inserting them with `Put`; a missing or wrongly-typed item
aborts with an error, keeping the entries already inserted. -/
def gobLoop [DecidableEq K] : Nat → List (GobItem K V) → Map K V → Map K V × Option String
  | 0, _, o => (o, none)
  | n + 1, .key k :: .val v :: rest, o => gobLoop n rest (o.Put k v)
  | _ + 1, .key _ :: _, o => (o, some "gob: value decode error")
  | _ + 1, _, o => (o, some "gob: key decode error")

/-- GobDecode: read the length prefix (its decode error is ignored, so a
missing prefix leaves `len == 0`), then run the loop on the receiver. -/
def Map.GobDecode [DecidableEq K] (o : Map K V) (b : List (GobItem K V)) :
    Map K V × Option String :=
  match b with
  | .int n :: rest => gobLoop n rest o
  | _ => gobLoop 0 b o

/-- Whether a gob stream starts with a decodable key/value pair. -/
def isPairHead {K V : Type} : List (GobItem K V) → Bool
  | .key _ :: .val _ :: _ => true
  | _ => false

/-- The ordered set: a `Map` from elements to the zero-size placeholder. -/
structure Set (T : Type) where
  mp : Map T Unit
deriving DecidableEq

/-- NewSet initializes an ordered set. -/
def NewSet {T : Type} : Set T := ⟨NewMap⟩

/-- Add inserts a new element in the set (`Put(elem, dummy)`). -/
def Set.Add {T : Type} [DecidableEq T] (s : Set T) (elem : T) : Set T :=
  ⟨s.mp.Put elem ()⟩

/-- Contains delegates to `ContainsKey`. -/
def Set.Contains {T : Type} [DecidableEq T] (s : Set T) (elem : T) : Bool :=
  s.mp.ContainsKey elem

/-- Elements returns the elements in insertion order (`mp.Keys()`). -/
def Set.Elements {T : Type} (s : Set T) : List T := s.mp.Keys

/-- The bytes handed to the element decoder: string-typed values are
re-quoted, anything else passes through raw. -/
def elemBytes (value : String) (dt : JType) : String :=
  if dt = JType.string then quoteRaw value else value

/-- One `ArrayEach` callback of the set's `UnmarshalJSON`: a failing
element decode only sets the error flag and skips the element; a
successful decode adds it.  The callback itself never stops the walk. -/
def unmarshalStep {T : Type} [DecidableEq T] (tUnmarshal : String → Except String T)
    (acc : Set T × Bool) (ev : String × JType) : Set T × Bool :=
  match tUnmarshal (elemBytes ev.1 ev.2) with
  | .error _ => (acc.1, true)
  | .ok e => (acc.1.Add e, acc.2)

/-- The set's UnmarshalJSON over the element sequence the external parser
reports: walk every element, then report "unmarshalling error" if any
element failed to decode. -/
def Set.UnmarshalJSON {T : Type} [DecidableEq T]
    (tUnmarshal : String → Except String T) (elems : List (String × JType))
    (s : Set T) : Set T × Option String :=
  let r := elems.foldl (unmarshalStep tUnmarshal) (s, false)
  (r.1, if r.2 then some "unmarshalling error" else none)

/-- Whether an `Except` is a success. -/
def isOk {ε α : Type} : Except ε α → Bool
  | .ok _ => true
  | .error _ => false

/-- Modelled from the spec: Go `json.Marshal` at type `int` renders the
decimal text form and never errors. -/
def jsonMarshalInt (n : Int) : Except String String := .ok (toString n)

/-- Decimal digit accumulator for the integer model of `json.Unmarshal`. -/
def parseDigits : List Char → Option Nat → Option Nat
  | [], acc => acc
  | c :: cs, acc =>
    if c.isDigit then parseDigits cs (some ((acc.getD 0) * 10 + (c.toNat - 48)))
    else none

/-- Modelled from the spec: Go `json.Unmarshal` into an `int` target
accepts only a JSON number (optional minus sign, decimal digits); any
other payload — in particular a quoted string — fails with a type error. -/
def jsonUnmarshalInt (s : String) : Except String Int :=
  match s.toList with
  | '-' :: cs =>
    match parseDigits cs none with
    | some n => .ok (-(n : Int))
    | none => .error "json: cannot unmarshal value into int"
  | cs =>
    match parseDigits cs none with
    | some n => .ok ((n : Int))
    | none => .error "json: cannot unmarshal value into int"

/-- Modelled from the spec: Go `json.Marshal` of a string containing no
character that needs escaping renders it wrapped in quotes. -/
def jsonMarshalString (s : String) : Except String String := .ok (quoteRaw s)

/-- Modelled from the spec: Go `json.Unmarshal` into a string target
accepts only a quoted JSON string (escape-free fragment); anything else
fails with a type error. -/
def jsonUnmarshalString (s : String) : Except String String :=
  match s.toList with
  | '"' :: rest =>
    if rest ≠ [] ∧ rest.getLast? = some '"' ∧ '"' ∉ rest.dropLast ∧ '\\' ∉ rest.dropLast
    then .ok ⟨rest.dropLast⟩
    else .error "json: cannot unmarshal value into string"
  | _ => .error "json: cannot unmarshal value into string"

/-- Scan raw bytes up to an unescaped closing quote. -/
def takeUntilQuote : List Char → Option (List Char × List Char)
  | [] => none
  | '"' :: rest => some ([], rest)
  | '\\' :: _ => none
  | c :: rest =>
    match takeUntilQuote rest with
    | some (tk, rem) => some (c :: tk, rem)
    | none => none

/-- Scan the raw bytes of an unquoted primitive value, stopping before the
member separator or the closing brace. -/
def takeValueChars : List Char → List Char × List Char
  | [] => ([], [])
  | c :: rest =>
    if c = ',' ∨ c = '\x7d' then ([], c :: rest)
    else
      let r := takeValueChars rest
      (c :: r.1, r.2)

/-- The primitive kind the parser infers from an unquoted value's bytes. -/
def classifyValue : List Char → Option JType
  | [] => none
  | c :: _ =>
    if c = 't' ∨ c = 'f' then some JType.boolean
    else if c = 'n' then some JType.null
    else if c = '-' ∨ c.isDigit then some JType.number
    else none

/-- Member loop of the modelled parser (fuel-bounded recursion). -/
def objectMembersAux : Nat → List Char → Option (List (String × String × JType))
  | 0, _ => none
  | fuel + 1, cs =>
    match cs with
    | '"' :: rest =>
      match takeUntilQuote rest with
      | none => none
      | some (keyChars, afterKey) =>
        match afterKey with
        | ':' :: '"' :: vrest =>
          match takeUntilQuote vrest with
          | none => none
          | some (valChars, afterVal) =>
            match afterVal with
            | ',' :: more =>
              match objectMembersAux fuel more with
              | none => none
              | some ms => some ((⟨keyChars⟩, ⟨valChars⟩, JType.string) :: ms)
            | ['\x7d'] => some [(⟨keyChars⟩, ⟨valChars⟩, JType.string)]
            | _ => none
        | ':' :: afterColon =>
          let r := takeValueChars afterColon
          match classifyValue r.1 with
          | none => none
          | some ty =>
            match r.2 with
            | ',' :: more =>
              match objectMembersAux fuel more with
              | none => none
              | some ms => some ((⟨keyChars⟩, ⟨r.1⟩, ty) :: ms)
            | ['\x7d'] => some [(⟨keyChars⟩, ⟨r.1⟩, ty)]
            | _ => none
        | _ => none
    | _ => none

/-- Modelled from the spec: the external textual parser, used only through
the abstract contract "parse a textual object incrementally, reporting
each member's raw name and value bytes and an inferred primitive kind".
This model covers the flat fragment the repository's encoder emits
(escape-free member names, primitive values); anything else is `none`. -/
def objectMembers (s : String) : Option (List (String × String × JType)) :=
  match s.toList with
  | '\x7b' :: '\x7d' :: [] => some []
  | '\x7b' :: rest => objectMembersAux s.length rest
  | _ => none

/-- Spec-side rendering of one member of an integer-keyed, integer-valued
map: the decimal text of the key wrapped as a quoted member name, a
colon, and the decimal value. -/
def specIntMember (kv : KeyValue Int Int) : String :=
  quoteRaw (toString kv.Key) ++ ":" ++ toString kv.Value

/-- Spec-side rendering of a member list, comma-separated. -/
def specIntMembers : List (KeyValue Int Int) → Bool → String
  | [], _ => ""
  | kv :: rest, isFirst =>
    (if isFirst then "" else ",") ++ specIntMember kv ++ specIntMembers rest false

/-- Spec-side rendering of a whole integer-keyed object. -/
def specIntObject (kvs : List (KeyValue Int Int)) : String :=
  "\x7b" ++ specIntMembers kvs true ++ "\x7d"

section MapLemmas

variable [DecidableEq K]

theorem mpGet_eq_none_iff (l : List (K × V)) (k : K) :
    mpGet l k = none ↔ k ∉ l.map Prod.fst := by
  induction l with
  | nil => simp [mpGet]
  | cons p ps ih =>
    by_cases h : p.1 = k
    · simp [mpGet, h]
    · simp only [mpGet, h, if_false, List.map_cons, List.mem_cons, not_or, ih]
      exact ⟨fun hn => ⟨fun hk => h hk.symm, hn⟩, fun hn => hn.2⟩

theorem mpGet_isSome_iff (l : List (K × V)) (k : K) :
    (mpGet l k).isSome = true ↔ k ∈ l.map Prod.fst := by
  rw [Option.isSome_iff_ne_none, ne_eq, mpGet_eq_none_iff, not_not]

theorem map_fst_mpSet (l : List (K × V)) (k : K) (v : V) :
    (mpSet l k v).map Prod.fst = l.map Prod.fst := by
  induction l with
  | nil => rfl
  | cons p ps ih => by_cases h : p.1 = k <;> simp [mpSet, h, ih]

theorem mpGet_mpSet_self (l : List (K × V)) (k : K) (v w : V)
    (h : mpGet l k = some w) : mpGet (mpSet l k v) k = some v := by
  induction l with
  | nil => simp [mpGet] at h
  | cons p ps ih =>
    by_cases hp : p.1 = k
    · simp [mpSet, mpGet, hp]
    · simp only [mpGet, hp, if_false] at h
      simp [mpSet, mpGet, hp, ih h]

theorem mpSet_mpSet (l : List (K × V)) (k : K) (v₁ v₂ : V) :
    mpSet (mpSet l k v₁) k v₂ = mpSet l k v₂ := by
  induction l with
  | nil => rfl
  | cons p ps ih => by_cases h : p.1 = k <;> simp [mpSet, h, ih]

theorem mpGet_append_single (l : List (K × V)) (k : K) (v : V)
    (h : mpGet l k = none) : mpGet (l ++ [(k, v)]) k = some v := by
  induction l with
  | nil => simp [mpGet]
  | cons p ps ih =>
    by_cases hp : p.1 = k
    · simp [mpGet, hp] at h
    · simp only [mpGet, hp, if_false] at h
      simp [mpGet, hp, ih h]

theorem mpSet_append_single (l : List (K × V)) (k : K) (v v' : V)
    (h : mpGet l k = none) : mpSet (l ++ [(k, v)]) k v' = l ++ [(k, v')] := by
  induction l with
  | nil => simp [mpSet]
  | cons p ps ih =>
    by_cases hp : p.1 = k
    · simp [mpGet, hp] at h
    · simp only [mpGet, hp, if_false] at h
      simp [mpSet, hp, ih h]

theorem map_fst_mpDel (l : List (K × V)) (k : K) :
    (mpDel l k).map Prod.fst = removeFirst (l.map Prod.fst) k := by
  induction l with
  | nil => rfl
  | cons p ps ih => by_cases h : p.1 = k <;> simp [mpDel, removeFirst, h, ih]

theorem removeFirst_sublist (l : List K) (k : K) : (removeFirst l k).Sublist l := by
  induction l with
  | nil => exact List.Sublist.refl _
  | cons x xs ih =>
    by_cases h : x = k
    · simpa [removeFirst, h] using List.sublist_cons_self x xs
    · simpa [removeFirst, h] using List.Sublist.cons₂ x ih

theorem removeFirst_eq_filter (l : List K) (k : K) (h : l.Nodup) :
    removeFirst l k = l.filter (fun x => x ≠ k) := by
  induction l with
  | nil => rfl
  | cons x xs ih =>
    rcases List.nodup_cons.mp h with ⟨hx, hxs⟩
    by_cases hk : x = k
    · have : ∀ y ∈ xs, y ≠ k := fun y hy => by
        intro hyk; exact hx (by rwa [hyk, ← hk] at hy)
      simp only [removeFirst, hk, if_true, List.filter_cons]
      rw [if_neg (by simp [hk])]
      exact (List.filter_eq_self.mpr (fun y hy => by simpa using this y hy)).symm
    · simp only [removeFirst, hk, if_false, List.filter_cons]
      rw [if_pos (by simpa using hk)]
      rw [ih hxs]

theorem not_mem_removeFirst (l : List K) (k : K) (h : l.Nodup) :
    k ∉ removeFirst l k := by
  rw [removeFirst_eq_filter l k h]
  simp [List.mem_filter]

theorem wf_NewMap : WF (NewMap : Map K V) := by constructor <;> simp [NewMap]

theorem wf_put (o : Map K V) (k : K) (v : V) (h : WF o) : WF (o.Put k v) := by
  rcases h with ⟨hmap, hnd⟩
  cases hg : mpGet o.mp k with
  | none =>
    have hk : k ∉ o.items := by
      rw [← hmap]; exact (mpGet_eq_none_iff o.mp k).mp hg
    refine ⟨?_, ?_⟩
    · simp [Map.Put, hg, hmap]
    · simp only [Map.Put, hg]
      rw [List.nodup_append]
      exact ⟨hnd, List.nodup_singleton k, by simpa using fun h' => hk h'⟩
  | some w =>
    refine ⟨?_, ?_⟩
    · simp [Map.Put, hg, map_fst_mpSet, hmap]
    · simpa [Map.Put, hg] using hnd

theorem wf_remove [Inhabited V] (o : Map K V) (k : K) (h : WF o) :
    WF (o.Remove k).2 := by
  rcases h with ⟨hmap, hnd⟩
  cases hg : mpGet o.mp k with
  | none => simpa [Map.Remove, hg] using ⟨hmap, hnd⟩
  | some w =>
    refine ⟨?_, ?_⟩
    · simp [Map.Remove, hg, map_fst_mpDel, hmap]
    · simpa [Map.Remove, hg] using hnd.sublist (removeFirst_sublist o.items k)

theorem wf_clear (o : Map K V) : WF o.Clear := by constructor <;> simp [Map.Clear]

theorem firstOccurrences_congr (ks : List K) :
    ∀ seen₁ seen₂ : List K, (∀ x, x ∈ seen₁ ↔ x ∈ seen₂) →
      firstOccurrences seen₁ ks = firstOccurrences seen₂ ks := by
  induction ks with
  | nil => intros; rfl
  | cons k ks ih =>
    intro s₁ s₂ hmem
    by_cases h : k ∈ s₁
    · simp only [firstOccurrences, if_pos h, if_pos ((hmem k).mp h), ih s₁ s₂ hmem]
    · have h₂ : k ∉ s₂ := fun hc => h ((hmem k).mpr hc)
      simp only [firstOccurrences, if_neg h, if_neg h₂]
      exact congrArg _ (ih _ _ (fun x => by simp [hmem x]))

theorem items_foldl_put (ps : List (K × V)) :
    ∀ m : Map K V, WF m →
      (ps.foldl putStep m).items = m.items ++ firstOccurrences m.items (ps.map Prod.fst) := by
  induction ps with
  | nil => intro m _; simp [firstOccurrences]
  | cons p ps ih =>
    intro m hwf
    simp only [List.foldl_cons, List.map_cons]
    by_cases hk : p.1 ∈ m.items
    · have hsome : (mpGet m.mp p.1).isSome = true := by
        rw [mpGet_isSome_iff, hwf.1]; exact hk
      cases hg : mpGet m.mp p.1 with
      | none => rw [hg] at hsome; simp at hsome
      | some w =>
        have hput : (putStep m p).items = m.items := by simp [putStep, Map.Put, hg]
        rw [ih (putStep m p) (wf_put m p.1 p.2 hwf), hput,
          firstOccurrences, if_pos hk]
    · have hg : mpGet m.mp p.1 = none := by
        rw [mpGet_eq_none_iff, hwf.1]; exact hk
      have hput : (putStep m p).items = m.items ++ [p.1] := by
        simp [putStep, Map.Put, hg]
      rw [ih (putStep m p) (wf_put m p.1 p.2 hwf), hput,
        firstOccurrences, if_neg hk, List.append_assoc]
      refine congrArg _ (congrArg _ ?_)
      exact firstOccurrences_congr _ _ _ (fun x => by simp [or_comm])

theorem filterMap_length_of_isSome {α β : Type} (l : List α) (f : α → Option β)
    (h : ∀ x ∈ l, (f x).isSome = true) : (l.filterMap f).length = l.length := by
  induction l with
  | nil => rfl
  | cons x xs ih =>
    cases hf : f x with
    | none =>
      have hx := h x (by simp)
      rw [hf] at hx; simp at hx
    | some b =>
      simp only [List.filterMap_cons, hf, List.length_cons]
      rw [ih (fun y hy => h y (by simp [hy]))]

theorem values_length_of_wf [Inhabited V] (o : Map K V) (h : WF o) :
    o.Values.length = o.items.length := by
  have hlen : (o.items.filterMap (fun k => mpGet o.mp k)).length = o.items.length := by
    refine filterMap_length_of_isSome _ _ (fun k hk => ?_)
    rw [mpGet_isSome_iff, h.1]; exact hk
  simp [Map.Values, hlen]

theorem mpGet_mpDel_self (l : List (K × V)) (k : K) (h : (l.map Prod.fst).Nodup) :
    mpGet (mpDel l k) k = none := by
  rw [mpGet_eq_none_iff, map_fst_mpDel]
  exact not_mem_removeFirst _ _ h

theorem wf_foldl_applyOp [Inhabited V] (ops : List (Op K V)) :
    ∀ m : Map K V, WF m → WF (ops.foldl applyOp m) := by
  induction ops with
  | nil => exact fun m h => h
  | cons op ops ih =>
    intro m hm
    refine ih (applyOp m op) ?_
    cases op with
    | put k v => exact wf_put m k v hm
    | remove k => exact wf_remove m k hm
    | clear => exact wf_clear m

theorem get_put_self [Inhabited V] (m : Map K V) (k : K) (v : V) :
    (m.Put k v).Get k = (v, true) := by
  cases hg : mpGet m.mp k with
  | none => simp [Map.Put, hg, Map.Get, mpGet_append_single _ _ _ hg]
  | some w => simp [Map.Put, hg, Map.Get, mpGet_mpSet_self _ _ v w hg]

theorem gobLoop_exact (ps : List (K × V)) :
    ∀ o : Map K V, gobLoop ps.length (pairItems ps) o = (ps.foldl putStep o, none) := by
  induction ps with
  | nil => intro o; rfl
  | cons p ps ih => intro o; simpa [pairItems, gobLoop, putStep] using ih (o.Put p.1 p.2)

theorem objectEach_all_ok (kind : KeyKind)
    (kUnmarshal : String → Except String K) (vUnmarshal : String → Except String V)
    (members : List (String × String × JType)) :
    ∀ (o : Map K V) (ps : List (K × V)),
      memberPairs kind kUnmarshal vUnmarshal members = .ok ps →
      objectEach kind kUnmarshal vUnmarshal o members = (ps.foldl putStep o, none) := by
  induction members with
  | nil =>
    intro o ps h
    simp only [memberPairs, Except.ok.injEq] at h
    simp [objectEach, ← h]
  | cons mem rest ih =>
    intro o ps h
    obtain ⟨key, value, dt⟩ := mem
    cases hd : decodeMemberPair kind kUnmarshal vUnmarshal key value dt with
    | error e => rw [memberPairs, hd] at h; exact absurd h (by simp)
    | ok p =>
      rw [memberPairs, hd] at h
      cases hr : memberPairs kind kUnmarshal vUnmarshal rest with
      | error e => rw [hr] at h; exact absurd h (by simp)
      | ok ps' =>
        rw [hr] at h
        simp only [Except.ok.injEq] at h
        subst h
        simp only [objectEach, unmarshalMember, hd, List.foldl_cons]
        exact ih (o.Put p.1 p.2) ps' hr

theorem set_fold_fst_flag {T : Type} [DecidableEq T]
    (tUnmarshal : String → Except String T) (elems : List (String × JType)) :
    ∀ (s : Set T) (b₁ b₂ : Bool),
      (elems.foldl (unmarshalStep tUnmarshal) (s, b₁)).1 =
        (elems.foldl (unmarshalStep tUnmarshal) (s, b₂)).1 := by
  induction elems with
  | nil => intros; rfl
  | cons ev rest ih =>
    intro s b₁ b₂
    cases h : tUnmarshal (elemBytes ev.1 ev.2) with
    | error e => simp only [List.foldl_cons, unmarshalStep, h]
    | ok e => simp only [List.foldl_cons, unmarshalStep, h]; exact ih (s.Add e) b₁ b₂

theorem set_fold_fst_filter {T : Type} [DecidableEq T]
    (tUnmarshal : String → Except String T) (elems : List (String × JType)) :
    ∀ (s : Set T) (b : Bool),
      (elems.foldl (unmarshalStep tUnmarshal) (s, b)).1 =
        ((elems.filter fun ev => isOk (tUnmarshal (elemBytes ev.1 ev.2))).foldl
          (unmarshalStep tUnmarshal) (s, b)).1 := by
  induction elems with
  | nil => intros; rfl
  | cons ev rest ih =>
    intro s b
    cases h : tUnmarshal (elemBytes ev.1 ev.2) with
    | error e =>
      rw [List.filter_cons_of_neg (by simp [isOk, h])]
      simp only [List.foldl_cons, unmarshalStep, h]
      exact (set_fold_fst_flag tUnmarshal rest s true b).trans (ih s b)
    | ok e =>
      rw [List.filter_cons_of_pos (by simp [isOk, h])]
      simp only [List.foldl_cons, unmarshalStep, h]
      exact ih (s.Add e) b

theorem set_fold_snd {T : Type} [DecidableEq T]
    (tUnmarshal : String → Except String T) (elems : List (String × JType)) :
    ∀ (s : Set T) (b : Bool),
      (elems.foldl (unmarshalStep tUnmarshal) (s, b)).2 =
        (b || elems.any fun ev => !(isOk (tUnmarshal (elemBytes ev.1 ev.2)))) := by
  induction elems with
  | nil => intro s b; simp
  | cons ev rest ih =>
    intro s b
    cases h : tUnmarshal (elemBytes ev.1 ev.2) with
    | error e =>
      simp only [List.foldl_cons, unmarshalStep, h]
      rw [ih s true, List.any_cons, h]
      simp [isOk]
    | ok e =>
      simp only [List.foldl_cons, unmarshalStep, h]
      rw [ih (s.Add e) b, List.any_cons, h]
      simp [isOk]

theorem str_append_assoc (a b c : String) : a ++ b ++ c = a ++ (b ++ c) := by
  apply String.ext
  simp [List.append_assoc]

end MapLemmas

section Claims

variable [DecidableEq K]

/-- C1: for every sequence of `Put` calls with keys k1,…,kn (keys possibly
repeating) starting from a new map, `Keys()` afterwards returns exactly
the subsequence of first-occurrence keys in their original
first-occurrence order, front = oldest insertion. -/
theorem c1_keys_are_first_occurrence_subsequence (kvs : List (K × V)) :
    (kvs.foldl putStep NewMap).Keys = firstOccurrences [] (kvs.map Prod.fst) := by
  have h := items_foldl_put kvs NewMap wf_NewMap
  simpa [Map.Keys, NewMap] using h

/-- C3: `Put(k, v1); Put(k, v2)` yields a map that is identical to the one
produced by a single `Put(k, v2)` on the otherwise-identical map — in
particular `Get(k)` returns v2 and k occupies the same `Keys()` position —
so re-inserting an existing key overwrites only the stored value and never
changes its position. -/
theorem c3_put_twice_eq_put_once [Inhabited V] (m : Map K V) (k : K) (v₁ v₂ : V) :
    (m.Put k v₁).Put k v₂ = m.Put k v₂ ∧
      ((m.Put k v₁).Put k v₂).Get k = (v₂, true) ∧
      ((m.Put k v₁).Put k v₂).Keys = (m.Put k v₂).Keys := by
  have heq : (m.Put k v₁).Put k v₂ = m.Put k v₂ := by
    cases hg : mpGet m.mp k with
    | none =>
      have h1 : mpGet (m.mp ++ [(k, v₁)]) k = some v₁ := mpGet_append_single _ _ _ hg
      simp [Map.Put, hg, h1, mpSet_append_single _ _ _ _ hg]
    | some w =>
      have h1 : mpGet (mpSet m.mp k v₁) k = some v₁ := mpGet_mpSet_self _ _ _ _ hg
      simp [Map.Put, hg, h1, mpSet_mpSet]
  exact ⟨heq, heq ▸ get_put_self m k v₂, heq ▸ rfl⟩

/-- C4: if k is present, `Remove(k)` returns the stored value, removes k,
and leaves the relative order of the remaining keys unchanged; if k is
absent, it returns the zero value of the value type and performs no
mutation. -/
theorem c4_remove_hit_and_miss [Inhabited V] (m : Map K V) (k : K) (h : WF m) :
    (∀ v, m.Get k = (v, true) →
        (m.Remove k).1 = v ∧
        ((m.Remove k).2).ContainsKey k = false ∧
        ((m.Remove k).2).Keys = m.Keys.filter (fun x => x ≠ k)) ∧
      (m.ContainsKey k = false → m.Remove k = (default, m)) := by
  constructor
  · intro v hv
    cases hg : mpGet m.mp k with
    | none => simp [Map.Get, hg] at hv
    | some w =>
      have hw : w = v := by
        simp only [Map.Get, hg] at hv
        exact (Prod.mk.injEq _ _ _ _ ▸ hv).1
      subst hw
      refine ⟨by simp [Map.Remove, hg], ?_, ?_⟩
      · have hnd : (m.mp.map Prod.fst).Nodup := by rw [h.1]; exact h.2
        simp [Map.Remove, hg, Map.ContainsKey, mpGet_mpDel_self _ _ hnd]
      · simp only [Map.Remove, hg, Map.Keys]
        exact removeFirst_eq_filter m.items k h.2
  · intro hc
    cases hg : mpGet m.mp k with
    | some w => rw [Map.ContainsKey, hg] at hc; simp at hc
    | none => simp [Map.Remove, hg]

/-- C4 witness: on the concrete map {1:10, 2:20, 3:30}, removing the
present key 2 returns 20 and keeps the remaining keys in order; removing
the absent key 5 returns 0 and leaves the map untouched. -/
theorem c4_remove_hit_and_miss_witness :
    (((((NewMap : Map Nat Nat).Put 1 10).Put 2 20).Put 3 30).Remove 2).1 = 20 ∧
      (((((NewMap : Map Nat Nat).Put 1 10).Put 2 20).Put 3 30).Remove 2).2.ContainsKey 2 =
        false ∧
      (((((NewMap : Map Nat Nat).Put 1 10).Put 2 20).Put 3 30).Remove 2).2.Keys =
        ((((NewMap : Map Nat Nat).Put 1 10).Put 2 20).Put 3 30).Keys.filter
          (fun x => x ≠ 2) ∧
      ((((NewMap : Map Nat Nat).Put 1 10).Put 2 20).Put 3 30).Remove 5 =
        (0, (((NewMap : Map Nat Nat).Put 1 10).Put 2 20).Put 3 30) := by
  have h2 := c4_remove_hit_and_miss ((((NewMap : Map Nat Nat).Put 1 10).Put 2 20).Put 3 30)
    2 (by decide)
  have h5 := c4_remove_hit_and_miss ((((NewMap : Map Nat Nat).Put 1 10).Put 2 20).Put 3 30)
    5 (by decide)
  have hhit := h2.1 20 (by decide)
  exact ⟨hhit.1, hhit.2.1, hhit.2.2, h5.2 (by decide)⟩

/-- C5: after every sequence of Put/Remove/Clear operations on a newly
constructed map, `Len()` equals the size of the index (the number of
distinct keys present), equals `len(Keys())`, equals `len(Values())`; the
order sequence never holds duplicate keys, and the index's key set equals
the set of keys in the order sequence. -/
theorem c5_size_and_key_set_invariants [Inhabited V] (ops : List (Op K V)) :
    (ops.foldl applyOp NewMap).Len = (ops.foldl applyOp NewMap).mp.length ∧
      (ops.foldl applyOp NewMap).Len = (ops.foldl applyOp NewMap).Keys.length ∧
      (ops.foldl applyOp NewMap).Len = (ops.foldl applyOp (NewMap : Map K V)).Values.length ∧
      (ops.foldl applyOp (NewMap : Map K V)).Keys.Nodup ∧
      (∀ k, (ops.foldl applyOp (NewMap : Map K V)).ContainsKey k = true ↔
        k ∈ (ops.foldl applyOp NewMap).Keys) := by
  have hwf : WF (ops.foldl applyOp (NewMap : Map K V)) :=
    wf_foldl_applyOp ops NewMap wf_NewMap
  refine ⟨?_, rfl, ?_, hwf.2, ?_⟩
  · have := congrArg List.length hwf.1
    simpa [Map.Len] using this.symm
  · exact (values_length_of_wf _ hwf).symm
  · intro k
    rw [Map.ContainsKey, mpGet_isSome_iff, hwf.1]
    exact Iff.rfl

/-- C6: in the textual encoding of an integer-keyed map, every key is
encoded as its decimal text form wrapped as a quoted string member name
(integer key 1 encodes as member name "1"), so object member names are
always textual. -/
theorem c6_int_keys_marshal_as_quoted_decimal (o : Map Int Int) :
    Map.MarshalJSON KeyKind.int jsonMarshalInt jsonMarshalInt o =
      .ok (specIntObject o.KeyValues) := by
  have h : ∀ (kvs : List (KeyValue Int Int)) (b : Bool),
      marshalMembers KeyKind.int jsonMarshalInt jsonMarshalInt kvs b =
        .ok (specIntMembers kvs b) := by
    intro kvs
    induction kvs with
    | nil => intro b; rfl
    | cons kv rest ih =>
      intro b
      simp [marshalMembers, keyBytes, jsonMarshalInt, specIntMembers, specIntMember,
        quoteRaw, ih false, str_append_assoc]
  simp only [Map.MarshalJSON, specIntObject, h o.KeyValues true]

/-- C7 counterexample: the claim quantifies over every map with an
unsupported key type, but an empty such map (here: `bool` keys, which
fall in the default switch case) marshals successfully to the empty
object and an empty member list decodes successfully, because the
per-entry key-type check is never reached. -/
theorem c7_counterexample_empty_map :
    Map.MarshalJSON KeyKind.other (fun (_ : Bool) => .ok "true") jsonMarshalInt
      (NewMap : Map Bool Int) = .ok "\x7b\x7d" ∧
      Map.UnmarshalJSON KeyKind.other
        (fun _ => .error "invalid key type") jsonUnmarshalInt
        (NewMap : Map Bool Int) [] = (NewMap, none) := by
  exact ⟨rfl, rfl⟩

/-- C7 amended: for every map with an unsupported key type holding at
least one entry, the textual encode fails with the "invalid key type"
error, aborting the whole call; and decoding a member sequence with at
least one member into such a key type fails the same way, mutating
nothing. -/
theorem c7_invalid_key_type_errors {K V : Type} [DecidableEq K] [Inhabited K] [Inhabited V]
    (kMarshal : K → Except String String) (vMarshal : V → Except String String)
    (kUnmarshal : String → Except String K) (vUnmarshal : String → Except String V)
    (o : Map K V) (ho : o.KeyValues ≠ [])
    (members : List (String × String × JType)) (hm : members ≠ []) :
    Map.MarshalJSON KeyKind.other kMarshal vMarshal o = .error "invalid key type" ∧
      Map.UnmarshalJSON KeyKind.other kUnmarshal vUnmarshal o members =
        (o, some "invalid key type") := by
  constructor
  · cases hkv : o.KeyValues with
    | nil => exact absurd hkv ho
    | cons kv rest => simp [Map.MarshalJSON, hkv, marshalMembers, keyBytes]
  · cases members with
    | nil => exact absurd rfl hm
    | cons mem rest =>
      obtain ⟨key, value, dt⟩ := mem
      simp [Map.UnmarshalJSON, objectEach, unmarshalMember, decodeMemberPair]

/-- C7 witness: on the concrete one-entry map with `bool` keys, marshal
and member decode both fail with "invalid key type". -/
theorem c7_invalid_key_type_errors_witness :
    Map.MarshalJSON KeyKind.other (fun (_ : Bool) => .ok "true") jsonMarshalInt
      ((NewMap : Map Bool Int).Put true 1) = .error "invalid key type" ∧
      Map.UnmarshalJSON KeyKind.other (fun _ => .error "boom") jsonUnmarshalInt
        ((NewMap : Map Bool Int).Put true 1) [("true", "1", JType.number)] =
        ((NewMap : Map Bool Int).Put true 1, some "invalid key type") := by
  have h := c7_invalid_key_type_errors (fun (_ : Bool) => Except.ok "true") jsonMarshalInt
    (fun _ => Except.error "boom") jsonUnmarshalInt
    ((NewMap : Map Bool Int).Put true 1) (by decide) [("true", "1", JType.number)]
    (by simp)
  exact h

/-- C8: the set's textual array decode does not stop at the first failing
element: the resulting set is the one obtained by adding exactly the
successfully decoded elements (elements after a failure included), and the
decode reports no error precisely when every element decodes. -/
theorem c8_set_decode_attempts_all_elements {T : Type} [DecidableEq T]
    (tUnmarshal : String → Except String T) (elems : List (String × JType))
    (s : Set T) :
    (Set.UnmarshalJSON tUnmarshal elems s).1 =
      (Set.UnmarshalJSON tUnmarshal
        (elems.filter fun ev => isOk (tUnmarshal (elemBytes ev.1 ev.2))) s).1 ∧
      ((Set.UnmarshalJSON tUnmarshal elems s).2 = none ↔
        ∀ ev ∈ elems, isOk (tUnmarshal (elemBytes ev.1 ev.2)) = true) := by
  constructor
  · simp only [Set.UnmarshalJSON]
    exact set_fold_fst_filter tUnmarshal elems s false
  · simp only [Set.UnmarshalJSON, set_fold_snd tUnmarshal elems s false, Bool.false_or]
    constructor
    · intro h ev hev
      by_contra hc
      have : (elems.any fun ev => !(isOk (tUnmarshal (elemBytes ev.1 ev.2)))) = true :=
        List.any_eq_true.mpr ⟨ev, hev, by simp [Bool.eq_false_iff.mpr hc]⟩
      rw [this] at h
      simp at h
    · intro h
      have : (elems.any fun ev => !(isOk (tUnmarshal (elemBytes ev.1 ev.2)))) = false := by
        rw [List.any_eq_false]
        intro ev hev
        simp [h ev hev]
      rw [this]
      simp

/-- C2: the textual codec does not round-trip integer-keyed maps, although
integer keys are accepted by both directions' key-type switches: the map
{1: 10} marshals to the bytes of the object with member name "1", the
parser reports the member ("1", "10", number), but decoding that member
into a fresh map fails, because the member name is re-quoted and
`json.Unmarshal` of a quoted string into an int target errors.  The
binary codec round-trips the same map.  This evaluates the code at the
failing input of the round-trip claim. -/
theorem c2_json_roundtrip_fails_on_int_keys :
    Map.MarshalJSON KeyKind.int jsonMarshalInt jsonMarshalInt
      ((NewMap : Map Int Int).Put 1 10) = .ok "\x7b\"1\":10\x7d" ∧
      objectMembers "\x7b\"1\":10\x7d" = some [("1", "10", JType.number)] ∧
      Map.UnmarshalJSON KeyKind.int jsonUnmarshalInt jsonUnmarshalInt
        (NewMap : Map Int Int) [("1", "10", JType.number)] =
        (NewMap, some "json: cannot unmarshal value into int") ∧
      (NewMap : Map Int Int).GobDecode ((NewMap : Map Int Int).Put 1 10).GobEncode =
        ((NewMap : Map Int Int).Put 1 10, none) := by
  exact ⟨rfl, rfl, rfl, rfl⟩

/-- C9: a binary decode whose stream announces more pairs than it can
deliver — because the stream ends early or the next item is not of the
expected key/value kind — returns an error and leaves the container
partially populated with exactly the pairs decoded before the failure. -/
theorem c9_gob_decode_error_keeps_partial (ps : List (K × V)) (n : Nat)
    (tail : List (GobItem K V)) (o : Map K V) (hn : ps.length < n)
    (ht : isPairHead tail = false) :
    ((o.GobDecode (GobItem.int n :: (pairItems ps ++ tail))).2).isSome = true ∧
      (o.GobDecode (GobItem.int n :: (pairItems ps ++ tail))).1 = ps.foldl putStep o := by
  show ((gobLoop n (pairItems ps ++ tail) o).2).isSome = true ∧
    (gobLoop n (pairItems ps ++ tail) o).1 = ps.foldl putStep o
  induction ps generalizing n o with
  | nil =>
    cases n with
    | zero => exact absurd hn (by simp)
    | succ m =>
      simp only [pairItems, List.nil_append, List.foldl_nil]
      cases tail with
      | nil => simp [gobLoop]
      | cons i rest =>
        cases i with
        | int j => simp [gobLoop]
        | key k =>
          cases rest with
          | nil => simp [gobLoop]
          | cons j rest2 =>
            cases j with
            | int j2 => simp [gobLoop]
            | key k2 => simp [gobLoop]
            | val v => simp [isPairHead] at ht
        | val v => simp [gobLoop]
  | cons p ps ih =>
    cases n with
    | zero => exact absurd hn (by simp)
    | succ m =>
      have hm : ps.length < m := by
        simp only [List.length_cons] at hn
        omega
      simp only [pairItems, List.cons_append, gobLoop, List.foldl_cons]
      exact ih m (o.Put p.1 p.2) hm

/-- C9 witness: a stream announcing two pairs but delivering one pair and
a dangling key errors out and keeps the one decoded pair. -/
theorem c9_gob_decode_error_keeps_partial_witness :
    (((NewMap : Map Nat Nat).GobDecode
        (GobItem.int 2 :: (pairItems [(1, 10)] ++ [GobItem.key 5]))).2).isSome = true ∧
      ((NewMap : Map Nat Nat).GobDecode
        (GobItem.int 2 :: (pairItems [(1, 10)] ++ [GobItem.key 5]))).1 =
        [(1, 10)].foldl putStep NewMap := by
  exact c9_gob_decode_error_keeps_partial [(1, 10)] 2 [GobItem.key 5] NewMap
    (by decide) (by decide)

/-- C10: decoding into an existing map applies each decoded pair with
`Put` on top of the current contents (no clearing), for both the textual
member decode and the binary decode; consequently, under the reachable-
state invariant, keys already present keep their original positions and
keys new to the map are appended after all existing keys in first-
occurrence order. -/
theorem c10_decode_merges_via_put (kind : KeyKind)
    (kUnmarshal : String → Except String K) (vUnmarshal : String → Except String V)
    (members : List (String × String × JType)) (ps : List (K × V)) (o : Map K V)
    (hm : memberPairs kind kUnmarshal vUnmarshal members = .ok ps) :
    Map.UnmarshalJSON kind kUnmarshal vUnmarshal o members = (ps.foldl putStep o, none) ∧
      o.GobDecode (GobItem.int ps.length :: pairItems ps) = (ps.foldl putStep o, none) ∧
      (WF o → (ps.foldl putStep o).items =
        o.items ++ firstOccurrences o.items (ps.map Prod.fst)) := by
  refine ⟨objectEach_all_ok kind kUnmarshal vUnmarshal members o ps hm, ?_, ?_⟩
  · show gobLoop ps.length (pairItems ps) o = (ps.foldl putStep o, none)
    exact gobLoop_exact ps o
  · intro hwf
    exact items_foldl_put ps o hwf

/-- C10 witness: decoding the members {"a":"apple","b":"bee"} into the
existing map {"b": "x"} puts both pairs on top of it, and the resulting
key order keeps "b" first and appends only the new key "a". -/
theorem c10_decode_merges_via_put_witness :
    Map.UnmarshalJSON KeyKind.string jsonUnmarshalString jsonUnmarshalString
      ((NewMap : Map String String).Put "b" "x")
      [("a", "apple", JType.string), ("b", "bee", JType.string)] =
      ([("a", "apple"), ("b", "bee")].foldl putStep
        ((NewMap : Map String String).Put "b" "x"), none) ∧
      ((NewMap : Map String String).Put "b" "x").GobDecode
        (GobItem.int 2 :: pairItems [("a", "apple"), ("b", "bee")]) =
        ([("a", "apple"), ("b", "bee")].foldl putStep
          ((NewMap : Map String String).Put "b" "x"), none) ∧
      ([("a", "apple"), ("b", "bee")].foldl putStep
        ((NewMap : Map String String).Put "b" "x")).items =
        ((NewMap : Map String String).Put "b" "x").items ++
          firstOccurrences ((NewMap : Map String String).Put "b" "x").items ["a", "b"] := by
  have h := c10_decode_merges_via_put KeyKind.string jsonUnmarshalString jsonUnmarshalString
    [("a", "apple", JType.string), ("b", "bee", JType.string)]
    [("a", "apple"), ("b", "bee")] ((NewMap : Map String String).Put "b" "x") (by rfl)
  exact ⟨h.1, h.2.1, h.2.2 (by decide)⟩

end Claims

end Ordered
